import Mathlib

/-!
Verification development for the sam3-agent-webapp repository.

The frontend stream consumer (`handleStreamEvent` in frontend/src/App.tsx) and
the SSE stream client (`runAgentStream` in frontend/src/services/api.ts) are
embedded directly from the TypeScript sources.  Strings flowing through the SSE
line machinery are modelled as `List Char`; `JSON.parse` is a platform
primitive and is modelled as an abstract parameter
`parse : List Char → Option StreamEvent`.

The backend agent core (backend/agent/core.py) and the RLE codec
(backend/utils/rle.py) are not among the provided sources; where a claim
depends on them they are modelled from the specification, as marked in the
corresponding doc comments.
-/

/-- Event type tags of the frontend `StreamEvent` interface
(frontend/src/types/index.ts). -/
inductive StreamEventType where
  | agent_start
  | round_start
  | llm_start
  | llm_chunk
  | llm_complete
  | sam3_start
  | sam3_complete
  | agent_complete
  | error
deriving DecidableEq

/-- The dynamic `data` payload of a stream event (`data: any` in the source),
modelled as a record holding every field the embedded code reads. -/
structure EventData where
  round : Nat := 0
  chunk : String := ""
  accumulated : String := ""
  text : String := ""
  message : String := ""
  text_prompt : String := ""
  num_masks : Nat := 0
  json_path : String := ""
  image_path : String := ""
deriving DecidableEq

/-- The `StreamEvent` interface of frontend/src/types/index.ts. -/
structure StreamEvent where
  type : StreamEventType
  data : EventData
deriving DecidableEq

/-- Status field of a `SAM3Call` (frontend/src/types/index.ts). -/
inductive CallStatus where
  | pending
  | running
  | complete
deriving DecidableEq

/-- The `SAM3Call` interface of frontend/src/types/index.ts. -/
structure SAM3Call where
  text_prompt : String
  num_masks : Nat
  json_path : Option String := none
  image_path : Option String := none
  status : CallStatus
deriving DecidableEq

/-- Status field of an `AgentRound` (frontend/src/types/index.ts). -/
inductive RoundStatus where
  | pending
  | llm_running
  | sam3_running
  | complete
deriving DecidableEq

/-- The `AgentRound` interface of frontend/src/types/index.ts
(`messages: any[]` is modelled as an opaque list). -/
structure AgentRound where
  round : Nat
  messages : List String
  generated_text : String
  llm_chunks : Option (List String) := none
  sam3_calls : Option (List SAM3Call) := none
  status : RoundStatus
deriving DecidableEq

/-- The `handleStreamEvent` switch of frontend/src/App.tsx, acting on the
`currentRounds` state; each `setCurrentRounds(prev => ...)` functional update
becomes a function of the previous rounds list.  Event types without a case in
the switch (`agent_start`, `agent_complete`, `error`) leave the list
unchanged. -/
def handleStreamEvent (event : StreamEvent) (prev : List AgentRound) :
    List AgentRound :=
  match event.type with
  | .round_start =>
      prev ++ [{ round := event.data.round, messages := [], generated_text := "",
                 llm_chunks := some [], sam3_calls := some [],
                 status := .pending }]
  | .llm_start =>
      prev.map fun r =>
        if r.round = event.data.round then { r with status := .llm_running }
        else r
  | .llm_chunk =>
      prev.map fun r =>
        if r.round = event.data.round then
          { r with
            llm_chunks := some ((r.llm_chunks.getD []) ++ [event.data.chunk]),
            generated_text := event.data.accumulated }
        else r
  | .llm_complete =>
      prev.map fun r =>
        if r.round = event.data.round then
          { r with generated_text := event.data.text, status := .sam3_running }
        else r
  | .sam3_start =>
      prev.map fun r =>
        if r.status = .sam3_running then
          { r with
            sam3_calls := some ((r.sam3_calls.getD []) ++
              [{ text_prompt := event.data.text_prompt, num_masks := 0,
                 status := .running }]) }
        else r
  | .sam3_complete =>
      prev.map fun r =>
        if r.status = .sam3_running then
          let calls := r.sam3_calls.getD []
          match calls.getLast? with
          | none => { r with sam3_calls := some calls, status := .complete }
          | some lastCall =>
              { r with
                sam3_calls := some (calls.dropLast ++
                  [{ lastCall with
                     num_masks := event.data.num_masks,
                     json_path := some event.data.json_path,
                     image_path := some event.data.image_path,
                     status := .complete }]),
                status := .complete }
        else r
  | _ => prev

/-- Folding a sequence of stream events through `handleStreamEvent`, starting
from a given rounds list (the succession of `setCurrentRounds` updates). -/
def foldHandle (events : List StreamEvent) (init : List AgentRound) :
    List AgentRound :=
  events.foldl (fun acc e => handleStreamEvent e acc) init

/-- Enumeration of every constructor of `StreamEventType`. -/
def allStreamEventTypes : List StreamEventType :=
  [.agent_start, .round_start, .llm_start, .llm_chunk, .llm_complete,
   .sam3_start, .sam3_complete, .agent_complete, .error]

/-- The specification name of each code-level event type: spec §4.6 names the
reasoning/segmentation phases `reasoning_*` / `segmentation_*` where the code
says `llm_*` / `sam3_*`. -/
def specEventName : StreamEventType → String
  | .agent_start => "agent_start"
  | .round_start => "round_start"
  | .llm_start => "reasoning_start"
  | .llm_chunk => "reasoning_chunk"
  | .llm_complete => "reasoning_complete"
  | .sam3_start => "segmentation_start"
  | .sam3_complete => "segmentation_complete"
  | .agent_complete => "agent_complete"
  | .error => "error"

/-- A callback invocation recorded by the embedded `runAgentStream` client
(frontend/src/services/api.ts): `onEvent`, `onComplete` (receiving the event's
`data` as the `AgentResult`) or `onError` (receiving `data.message`). -/
inductive CallbackCall where
  | onEvent (e : StreamEvent)
  | onComplete (d : EventData)
  | onError (msg : String)
deriving DecidableEq

/-- The six characters checked by `line.startsWith('data: ')`. -/
def dataMarker : List Char := "data: ".toList

/-- Processing of one complete line inside `runAgentStream`'s read loop: a
line not starting with the `data:` marker is ignored; otherwise the payload
after the 6-character marker is fed to `JSON.parse` (the abstract `parse`); a
parse failure is caught and the line skipped; a parsed event is delivered to
`onEvent` and, when terminal, additionally to `onComplete` or `onError`. -/
def processLine (parse : List Char → Option StreamEvent) (line : List Char) :
    List CallbackCall :=
  if dataMarker.isPrefixOf line then
    match parse (line.drop 6) with
    | some event =>
        CallbackCall.onEvent event ::
          (if event.type = .agent_complete then
            [CallbackCall.onComplete event.data]
          else if event.type = .error then
            [CallbackCall.onError event.data.message]
          else [])
    | none => []
  else []

/-- Callback sequence produced by the `for (const line of lines)` loop over a
list of complete lines. -/
def lineSeq (parse : List Char → Option StreamEvent)
    (lines : List (List Char)) : List CallbackCall :=
  lines.flatMap (processLine parse)

/-- The events successfully parsed from the `data:` lines of a line
sequence. -/
def parsedEvents (parse : List Char → Option StreamEvent)
    (lines : List (List Char)) : List StreamEvent :=
  lines.filterMap fun l =>
    if dataMarker.isPrefixOf l then parse (l.drop 6) else none

/-- Whether a callback is one of the two terminal callbacks. -/
def isTerminalCall : CallbackCall → Bool
  | .onComplete _ => true
  | .onError _ => true
  | .onEvent _ => false

/-- The terminal callback (if any) that the dispatch loop emits for a parsed
event. -/
def terminalCallOf (e : StreamEvent) : Option CallbackCall :=
  if e.type = .agent_complete then some (.onComplete e.data)
  else if e.type = .error then some (.onError e.data.message)
  else none

/-- JavaScript `buffer.split('\n')` on the character-list model: the list of
newline-separated segments (always nonempty; a trailing newline yields a final
empty segment). -/
def splitNl : List Char → List (List Char)
  | [] => [[]]
  | c :: cs =>
      if c = '\n' then [] :: splitNl cs
      else
        match splitNl cs with
        | [] => [[c]]
        | seg :: rest => (c :: seg) :: rest

/-- `lines.pop() || ''` — the trailing (possibly incomplete) segment kept as
the carried buffer. -/
def lastSeg (ls : List (List Char)) : List Char := ls.getLast?.getD []

/-- Prepending a carried prefix onto the first segment of a split (used to
relate the split of a concatenation to the splits of its parts). -/
def consApp (x : List Char) : List (List Char) → List (List Char)
  | [] => [x]
  | y :: ys => (x ++ y) :: ys

/-- The `while (true) { ... reader.read() ... }` loop of `runAgentStream`, fed
the decoded text chunks in order: each chunk is appended to the carried
buffer, the buffer is split on newlines, every complete line is processed and
the final segment becomes the new buffer; on `done` the loop breaks, leaving
any buffered partial line unprocessed. -/
def readLoop (parse : List Char → Option StreamEvent) :
    List Char → List (List Char) → List CallbackCall
  | _, [] => []
  | buf, c :: cs =>
      let ls := splitNl (buf ++ c)
      lineSeq parse ls.dropLast ++ readLoop parse (lastSeg ls) cs

/-- The callback sequence `runAgentStream` delivers for a given sequence of
decoded read chunks. -/
def runStream (parse : List Char → Option StreamEvent)
    (chunks : List (List Char)) : List CallbackCall :=
  readLoop parse [] chunks

/-- The error value reaching `runAgentStream`'s promise `.catch` handler. -/
structure FetchError where
  name : String
  message : String
deriving DecidableEq

/-- The handler
`.catch((error) => { if (error.name !== 'AbortError' && onError) ... })`
of `runAgentStream`. -/
def catchHandler (err : FetchError) : List CallbackCall :=
  if err.name ≠ "AbortError" then [CallbackCall.onError err.message] else []

/-- Rejection produced when the returned handle's `close()` calls
`controller.abort()` on the in-flight fetch: per the platform contract of
`AbortController`, the request is aborted and the promise rejects with an
error whose `name` is `"AbortError"`. -/
def abortRejection (msg : String) : FetchError :=
  { name := "AbortError", message := msg }

/-- Position of a round status along the chain
pending → llm_running → sam3_running → complete. -/
def statusRank : RoundStatus → Nat
  | .pending => 0
  | .llm_running => 1
  | .sam3_running => 2
  | .complete => 3

/-- An event is well-targeted for the current rounds list when an `llm_start`
only addresses rounds still at or before `llm_running` and an `llm_complete`
only addresses rounds at or before `sam3_running` (the orderly per-round
protocol); every other event type is unrestricted. -/
def stepOk (rounds : List AgentRound) (e : StreamEvent) : Prop :=
  match e.type with
  | .llm_start =>
      ∀ r ∈ rounds, r.round = e.data.round → statusRank r.status ≤ 1
  | .llm_complete =>
      ∀ r ∈ rounds, r.round = e.data.round → statusRank r.status ≤ 2
  | _ => True

/-- Every step of the trace is well-targeted with respect to the rounds list
it is applied to. -/
inductive TraceOk : List AgentRound → List StreamEvent → Prop where
  | nil (rounds : List AgentRound) : TraceOk rounds []
  | cons {rounds : List AgentRound} {e : StreamEvent} {es : List StreamEvent} :
      stepOk rounds e → TraceOk (handleStreamEvent e rounds) es →
      TraceOk rounds (e :: es)

/-- The round index carried by a `round_start` event, if the event is one. -/
def roundStartIdx (e : StreamEvent) : Option Nat :=
  if e.type = .round_start then some e.data.round else none

/-- Tool invocations of the agent (spec §4.3, README tool list). -/
inductive ToolCall where
  | segment_phrase (phrase : String)
  | examine_each_mask (mask_index : Nat) (verdict : Bool) (rationale : String)
  | select_masks_and_return (mask_indices : List Nat)
  | report_no_mask (rationale : String)
deriving DecidableEq

/-- Whether a tool ends the run: the terminal tools are
`select_masks_and_return` and `report_no_mask`. -/
def ToolCall.isTerminal : ToolCall → Bool
  | .select_masks_and_return _ => true
  | .report_no_mask _ => true
  | _ => false

/-- Terminal status of an agent run (spec §3). -/
inductive RunStatus where
  | success
  | no_masks
  | incomplete
  | error
deriving DecidableEq

/-- Terminal status produced by a terminal tool (spec §4.4): a non-empty
selection succeeds, an empty selection or `report_no_mask` yields
`no_masks`.  Non-terminal tools never reach this function. -/
def terminalStatus : ToolCall → RunStatus
  | .select_masks_and_return idxs =>
      if idxs.isEmpty then .no_masks else .success
  | .report_no_mask _ => .no_masks
  | _ => .incomplete

/-- Outcome of a modelled agent run: the terminal status, the history's round
indices, and the stream events emitted along the way. -/
structure RunResult where
  status : RunStatus
  history : List Nat
  events : List StreamEvent
deriving DecidableEq

/-- Stream event with a given type and round index, all other data fields
defaulted. -/
def roundEvent (t : StreamEventType) (idx : Nat) : StreamEvent :=
  { type := t, data := { round := idx } }

/-- Modelled from the spec: the backend agent iteration loop
(`while generation_count < max_generations` of backend/agent/core.py, shown as
pseudocode in the project summary document) — backend/agent/core.py is not
among the provided sources.  Each iteration opens round `count + 1` (1-based,
contiguous), emits `round_start` / `llm_start` / `llm_complete` for it, asks
the Reasoning Service (`reason`) for the round's tool call, stops with the
tool's terminal status when it is terminal, and otherwise increments the
count; exhausting the budget ends the run as `incomplete` (spec §4.5). -/
def agentLoopModel (reason : Nat → ToolCall) :
    Nat → Nat → List Nat → List StreamEvent → RunResult
  | 0, _, hist, evs => { status := .incomplete, history := hist, events := evs }
  | rem + 1, count, hist, evs =>
      let idx := count + 1
      let evs2 := evs ++ [roundEvent .round_start idx, roundEvent .llm_start idx,
                          roundEvent .llm_complete idx]
      let hist2 := hist ++ [idx]
      let tc := reason count
      if tc.isTerminal then
        { status := terminalStatus tc, history := hist2,
          events := evs2 ++ [roundEvent .agent_complete idx] }
      else agentLoopModel reason rem (count + 1) hist2 evs2

/-- Modelled from the spec: a whole agent run with round budget `maxGen`,
starting with an `agent_start` event, an empty history and round count 0. -/
def runAgentModel (reason : Nat → ToolCall) (maxGen : Nat) : RunResult :=
  agentLoopModel reason maxGen 0 [] [roundEvent .agent_start 0]

namespace RLE

/-- Decode failure (spec §4.1): the declared shape is non-positive or the run
lengths do not sum to `height × width`. -/
inductive DecodeError where
  | nonPositiveShape
  | shapeMismatch
deriving DecidableEq

/-- Modelled from the spec: run accumulation for the RLE encoder
(backend/utils/rle.py is not among the provided sources).  `cur` is the value
of the current run and `count` its length so far. -/
def encAux : Bool → Nat → List Bool → List Nat
  | _, count, [] => [count]
  | cur, count, x :: xs =>
      if x = cur then encAux cur (count + 1) xs
      else count :: encAux x 1 xs

/-- Modelled from the spec: `encode(dense_boolean_grid) -> rle` — the sequence
of alternating run lengths starting from background (`false`) at grid index 0
(spec §4.1); the grid is the row-major flattening of the mask. -/
def encode (m : List Bool) : List Nat := encAux false 0 m

/-- Expansion of alternating run lengths back into a dense grid, starting from
background. -/
def decAux : Bool → List Nat → List Bool
  | _, [] => []
  | b, n :: ns => List.replicate n b ++ decAux (!b) ns

/-- Modelled from the spec: `decode(rle, height, width) ->
dense_boolean_grid`, failing with `DecodeError` if the declared shape is
non-positive or the run lengths do not sum to `height × width` (spec §4.1). -/
def decode (runs : List Nat) (height width : Nat) :
    Except DecodeError (List Bool) :=
  if height = 0 ∨ width = 0 then .error .nonPositiveShape
  else if runs.sum ≠ height * width then .error .shapeMismatch
  else .ok (decAux false runs)

end RLE

/-- A replayed-`llm_start` trace: round 1 is opened, its reasoning completes,
and then a late `llm_start` for round 1 arrives. -/
def lateStartTrace : List StreamEvent :=
  [roundEvent .round_start 1, roundEvent .llm_complete 1,
   roundEvent .llm_start 1]

/-- A one-round list sitting at status `pending`. -/
def pendingRound1 : List AgentRound :=
  [{ round := 1, messages := [], generated_text := "",
     llm_chunks := some [], sam3_calls := some [], status := .pending }]

/-- C1: processing an `llm_chunk` event carrying round index `d.round`, an
incremental chunk `d.chunk` and a cumulative text `d.accumulated` rewrites
every entry of the rounds list bearing that index so that its
`generated_text` is the cumulative text and its `llm_chunks` is the previous
chunk list with the incremental chunk appended.  Since the previous entry is
arbitrary, the displayed text after any chunk is the cumulative text,
independent of which earlier chunk events were processed. -/
theorem llm_chunk_sets_cumulative (rounds : List AgentRound) (d : EventData)
    (i : Nat) (rd : AgentRound) (hget : rounds[i]? = some rd)
    (hr : rd.round = d.round) :
    (handleStreamEvent { type := .llm_chunk, data := d } rounds)[i]? =
      some { rd with
             llm_chunks := some (rd.llm_chunks.getD [] ++ [d.chunk]),
             generated_text := d.accumulated } := by
  simp only [handleStreamEvent, List.getElem?_map, hget, Option.map_some']
  rw [if_pos hr]

/-- C1 witness: the theorem applied to a concrete one-round list and a
concrete chunk event. -/
theorem llm_chunk_sets_cumulative_witness :
    (handleStreamEvent
        { type := .llm_chunk,
          data := { round := 1, chunk := "b", accumulated := "ab" } }
        [{ round := 1, messages := [], generated_text := "a",
           llm_chunks := some ["a"], sam3_calls := some [],
           status := .llm_running }])[0]? =
      some { round := 1, messages := [], generated_text := "ab",
             llm_chunks := some ["a", "b"], sam3_calls := some [],
             status := .llm_running } :=
  llm_chunk_sets_cumulative _ _ 0 _ rfl rfl

/-- C2: the stream surface has exactly the nine event types of the spec's
enumeration — every `StreamEventType` is among the nine listed constructors,
the nine are pairwise distinct, and under the spec's naming they are
precisely agent_start, round_start, reasoning_start, reasoning_chunk,
reasoning_complete, segmentation_start, segmentation_complete,
agent_complete, error. -/
theorem stream_event_types_exactly_nine :
    (∀ t : StreamEventType, t ∈ allStreamEventTypes) ∧
      allStreamEventTypes.Nodup ∧
      allStreamEventTypes.map specEventName =
        ["agent_start", "round_start", "reasoning_start", "reasoning_chunk",
         "reasoning_complete", "segmentation_start", "segmentation_complete",
         "agent_complete", "error"] :=
  ⟨fun t => by cases t <;> simp [allStreamEventTypes], by decide, rfl⟩

/-- C4: `close()` aborts the in-flight fetch via `controller.abort()`, whose
rejection carries the name `"AbortError"`; the `.catch` handler invokes no
callback on such a rejection, and it never invokes `onComplete` for any
rejection whatsoever. -/
theorem abort_triggers_no_callback :
    (∀ msg : String, catchHandler (abortRejection msg) = []) ∧
      (∀ (err : FetchError) (d : EventData),
        CallbackCall.onComplete d ∉ catchHandler err) := by
  constructor
  · intro msg
    simp [catchHandler, abortRejection]
  · intro err d
    unfold catchHandler
    split <;> simp

/-- C10: malformed stream data never aborts consumption — a line not starting
with the `data:` marker yields no callback, a `data:` line whose payload
fails to parse yields no callback, and in both cases the remaining lines are
processed exactly as they would be without the offending line. -/
theorem malformed_line_skipped (parse : List Char → Option StreamEvent)
    (line : List Char) (rest : List (List Char)) :
    (¬ dataMarker.isPrefixOf line →
        processLine parse line = [] ∧
          lineSeq parse (line :: rest) = lineSeq parse rest) ∧
      (dataMarker.isPrefixOf line → parse (line.drop 6) = none →
        processLine parse line = [] ∧
          lineSeq parse (line :: rest) = lineSeq parse rest) := by
  constructor
  · intro h
    have hskip : processLine parse line = [] := by simp [processLine, h]
    exact ⟨hskip, by simp [lineSeq, List.flatMap_cons, hskip]⟩
  · intro h hp
    have hskip : processLine parse line = [] := by simp [processLine, h, hp]
    exact ⟨hskip, by simp [lineSeq, List.flatMap_cons, hskip]⟩

/-- C10 witness: the theorem applied to a concrete unparsable `data:` line and
a concrete non-`data:` line, under a parse function that rejects
everything. -/
theorem malformed_line_skipped_witness :
    processLine (fun _ => none) ("data: oops".toList) = [] ∧
      processLine (fun _ => none) ("event: x".toList) = [] :=
  ⟨((malformed_line_skipped (fun _ => none) ("data: oops".toList) []).2
      (by decide) rfl).1,
   ((malformed_line_skipped (fun _ => none) ("event: x".toList) []).1
      (by decide)).1⟩

/-- C3: over any sequence of SSE lines, the terminal callbacks delivered by
the event dispatch loop are exactly the images of the parsed events whose
type is `agent_complete` (invoking `onComplete` with the event's data) or
`error` (invoking `onError` with the data's message), in stream order; so a
stream carrying exactly one `agent_complete` or `error` event triggers
exactly one terminal callback. -/
theorem terminal_callbacks_exact (parse : List Char → Option StreamEvent)
    (lines : List (List Char)) :
    (lineSeq parse lines).filter isTerminalCall =
      (parsedEvents parse lines).filterMap terminalCallOf := by
  induction lines with
  | nil => rfl
  | cons l ls ih =>
      simp only [lineSeq, List.flatMap_cons, List.filter_append, parsedEvents,
        List.filterMap_cons] at ih ⊢
      by_cases hp : dataMarker.isPrefixOf l
      · cases hparse : parse (l.drop 6) with
        | none => simp [processLine, hp, hparse, ih]
        | some e =>
            by_cases hac : e.type = .agent_complete
            · simp [processLine, hp, hparse, hac, terminalCallOf,
                isTerminalCall, ih]
            · by_cases herr : e.type = .error
              · simp [processLine, hp, hparse, hac, herr, terminalCallOf,
                  isTerminalCall, ih]
              · simp [processLine, hp, hparse, hac, herr, terminalCallOf,
                  isTerminalCall, ih]
      · simp [processLine, hp, ih]

/-- Every status rank is at most the rank of `complete`. -/
theorem statusRank_le_three (s : RoundStatus) : statusRank s ≤ 3 := by
  cases s <;> simp [statusRank]

/-- The rounds list never shrinks under one event. -/
theorem length_le_handleStreamEvent (e : StreamEvent)
    (rounds : List AgentRound) :
    rounds.length ≤ (handleStreamEvent e rounds).length := by
  obtain ⟨t, d⟩ := e
  cases t <;> simp [handleStreamEvent]

/-- One well-targeted event never lowers the status rank of any existing
round (compared positionally). -/
theorem step_statusRank_le {e : StreamEvent} {rounds : List AgentRound}
    (hok : stepOk rounds e) {i : Nat} {r r' : AgentRound}
    (h1 : rounds[i]? = some r)
    (h2 : (handleStreamEvent e rounds)[i]? = some r') :
    statusRank r.status ≤ statusRank r'.status := by
  have hmem : r ∈ rounds := List.getElem?_mem h1
  have hlt : i < rounds.length := (List.getElem?_eq_some.mp h1).1
  obtain ⟨t, d⟩ := e
  cases t
  case round_start =>
      rw [show handleStreamEvent ⟨.round_start, d⟩ rounds = rounds ++ _ from
        rfl, List.getElem?_append, if_pos hlt, h1] at h2
      injection h2 with h
      rw [h]
  case llm_start =>
      rw [show handleStreamEvent ⟨.llm_start, d⟩ rounds = rounds.map _ from
        rfl, List.getElem?_map, h1, Option.map_some'] at h2
      injection h2 with h
      rw [← h]
      split
      · next hcond => simpa [statusRank] using hok r hmem hcond
      · exact Nat.le_refl _
  case llm_chunk =>
      rw [show handleStreamEvent ⟨.llm_chunk, d⟩ rounds = rounds.map _ from
        rfl, List.getElem?_map, h1, Option.map_some'] at h2
      injection h2 with h
      rw [← h]
      split <;> exact Nat.le_refl _
  case llm_complete =>
      rw [show handleStreamEvent ⟨.llm_complete, d⟩ rounds = rounds.map _ from
        rfl, List.getElem?_map, h1, Option.map_some'] at h2
      injection h2 with h
      rw [← h]
      split
      · next hcond => simpa [statusRank] using hok r hmem hcond
      · exact Nat.le_refl _
  case sam3_start =>
      rw [show handleStreamEvent ⟨.sam3_start, d⟩ rounds = rounds.map _ from
        rfl, List.getElem?_map, h1, Option.map_some'] at h2
      injection h2 with h
      rw [← h]
      split <;> exact Nat.le_refl _
  case sam3_complete =>
      rw [show handleStreamEvent ⟨.sam3_complete, d⟩ rounds = rounds.map _ from
        rfl, List.getElem?_map, h1, Option.map_some'] at h2
      injection h2 with h
      rw [← h]
      split
      · next hcond =>
          rw [hcond]
          cases hl : (r.sam3_calls.getD []).getLast? <;>
            simp [hl, statusRank]
      · exact Nat.le_refl _
  case agent_start =>
      have h2' : rounds[i]? = some r' := h2
      rw [h1] at h2'
      injection h2' with h
      rw [h]
  case agent_complete =>
      have h2' : rounds[i]? = some r' := h2
      rw [h1] at h2'
      injection h2' with h
      rw [h]
  case error =>
      have h2' : rounds[i]? = some r' := h2
      rw [h1] at h2'
      injection h2' with h
      rw [h]

/-- A single event makes a round `complete` only from `sam3_running` — via a
`sam3_complete` event — unless the round already was complete. -/
theorem step_complete_origin {e : StreamEvent} {rounds : List AgentRound}
    {i : Nat} {r r' : AgentRound}
    (h1 : rounds[i]? = some r)
    (h2 : (handleStreamEvent e rounds)[i]? = some r')
    (hc : r'.status = .complete) :
    r.status = .complete ∨
      (r.status = .sam3_running ∧ e.type = .sam3_complete) := by
  have hlt : i < rounds.length := (List.getElem?_eq_some.mp h1).1
  obtain ⟨t, d⟩ := e
  cases t
  case round_start =>
      rw [show handleStreamEvent ⟨.round_start, d⟩ rounds = rounds ++ _ from
        rfl, List.getElem?_append, if_pos hlt, h1] at h2
      injection h2 with h
      rw [h]
      exact Or.inl hc
  case llm_start =>
      rw [show handleStreamEvent ⟨.llm_start, d⟩ rounds = rounds.map _ from
        rfl, List.getElem?_map, h1, Option.map_some'] at h2
      injection h2 with h
      rw [← h] at hc
      revert hc
      split <;> intro hc
      · simp at hc
      · exact Or.inl hc
  case llm_chunk =>
      rw [show handleStreamEvent ⟨.llm_chunk, d⟩ rounds = rounds.map _ from
        rfl, List.getElem?_map, h1, Option.map_some'] at h2
      injection h2 with h
      rw [← h] at hc
      revert hc
      split <;> exact fun hc => Or.inl hc
  case llm_complete =>
      rw [show handleStreamEvent ⟨.llm_complete, d⟩ rounds = rounds.map _ from
        rfl, List.getElem?_map, h1, Option.map_some'] at h2
      injection h2 with h
      rw [← h] at hc
      revert hc
      split <;> intro hc
      · simp at hc
      · exact Or.inl hc
  case sam3_start =>
      rw [show handleStreamEvent ⟨.sam3_start, d⟩ rounds = rounds.map _ from
        rfl, List.getElem?_map, h1, Option.map_some'] at h2
      injection h2 with h
      rw [← h] at hc
      revert hc
      split <;> exact fun hc => Or.inl hc
  case sam3_complete =>
      rw [show handleStreamEvent ⟨.sam3_complete, d⟩ rounds = rounds.map _ from
        rfl, List.getElem?_map, h1, Option.map_some'] at h2
      injection h2 with h
      rw [← h] at hc
      revert hc
      split
      · next hcond => exact fun _ => Or.inr ⟨hcond, rfl⟩
      · exact fun hc => Or.inl hc
  case agent_start =>
      have h2' : rounds[i]? = some r' := h2
      rw [h1] at h2'
      injection h2' with h
      rw [h]
      exact Or.inl hc
  case agent_complete =>
      have h2' : rounds[i]? = some r' := h2
      rw [h1] at h2'
      injection h2' with h
      rw [h]
      exact Or.inl hc
  case error =>
      have h2' : rounds[i]? = some r' := h2
      rw [h1] at h2'
      injection h2' with h
      rw [h]
      exact Or.inl hc

/-- Along a well-targeted trace, the status rank of every surviving round is
monotone. -/
theorem foldHandle_statusRank_le :
    ∀ (es : List StreamEvent) (rounds : List AgentRound), TraceOk rounds es →
      ∀ (i : Nat) (r r' : AgentRound), rounds[i]? = some r →
        (foldHandle es rounds)[i]? = some r' →
        statusRank r.status ≤ statusRank r'.status := by
  intro es
  induction es with
  | nil =>
      intro rounds _ i r r' h1 h2
      have h2' : rounds[i]? = some r' := h2
      rw [h1] at h2'
      injection h2' with h
      rw [h]
  | cons e es ih =>
      intro rounds hok i r r' h1 h2
      cases hok with
      | cons hstep htrace =>
          have hlt : i < rounds.length := (List.getElem?_eq_some.mp h1).1
          have hlt2 : i < (handleStreamEvent e rounds).length :=
            Nat.lt_of_lt_of_le hlt (length_le_handleStreamEvent e rounds)
          obtain ⟨m, hm⟩ : ∃ m, (handleStreamEvent e rounds)[i]? = some m :=
            ⟨_, List.getElem?_eq_getElem hlt2⟩
          exact Nat.le_trans (step_statusRank_le hstep h1 hm)
            (ih (handleStreamEvent e rounds) htrace i m r' hm h2)

/-- C5 (amended): for every event sequence that is well-targeted along the
way (`TraceOk`: each `llm_start` reaches its round while that round is still
at or before `llm_running`, each `llm_complete` while at or before
`sam3_running`), every round's status only advances along the chain
pending → llm_running → sam3_running → complete and never moves backward;
moreover — unconditionally — a single event makes a round `complete` only
from `sam3_running`, via a `sam3_complete` event, so a round reaches
`complete` only after its reasoning phase has completed. -/
theorem status_monotone_of_traceOk :
    (∀ (rounds : List AgentRound) (es : List StreamEvent), TraceOk rounds es →
      ∀ (i : Nat) (r r' : AgentRound), rounds[i]? = some r →
        (foldHandle es rounds)[i]? = some r' →
        statusRank r.status ≤ statusRank r'.status) ∧
      (∀ (e : StreamEvent) (rounds : List AgentRound) (i : Nat)
        (r r' : AgentRound), rounds[i]? = some r →
        (handleStreamEvent e rounds)[i]? = some r' →
        r'.status = .complete →
        r.status = .complete ∨
          (r.status = .sam3_running ∧ e.type = .sam3_complete)) :=
  ⟨fun rounds es hok => foldHandle_statusRank_le es rounds hok,
   fun _ _ _ _ _ h1 h2 hc => step_complete_origin h1 h2 hc⟩

/-- C5 witness: the amended theorem applied to a concrete well-targeted
trace — an `llm_start` for a pending round advances it to `llm_running`. -/
theorem status_monotone_of_traceOk_witness :
    statusRank RoundStatus.pending ≤ statusRank RoundStatus.llm_running :=
  status_monotone_of_traceOk.1 pendingRound1 [roundEvent .llm_start 1]
    (TraceOk.cons
      ((by decide : ∀ r ∈ pendingRound1, r.round = 1 →
          statusRank r.status ≤ 1))
      (TraceOk.nil _)) 0
    { round := 1, messages := [], generated_text := "",
      llm_chunks := some [], sam3_calls := some [], status := .pending }
    { round := 1, messages := [], generated_text := "",
      llm_chunks := some [], sam3_calls := some [], status := .llm_running }
    rfl rfl

/-- C5 counterexample: the claim as stated quantifies over every event
sequence, but a late `llm_start` for a round whose reasoning already
completed moves that round's status backward from `sam3_running` to
`llm_running`. -/
theorem status_moves_backward_on_late_start :
    ((foldHandle [roundEvent .round_start 1, roundEvent .llm_complete 1]
        [])[0]?).map AgentRound.status = some .sam3_running ∧
      ((foldHandle lateStartTrace [])[0]?).map AgentRound.status =
        some .llm_running :=
  ⟨rfl, rfl⟩

/-- One event leaves the `round` field of every existing entry unchanged and
appends a new entry exactly when the event is a `round_start`, whose index is
the event's `data.round`. -/
theorem map_round_handleStreamEvent (e : StreamEvent)
    (rounds : List AgentRound) :
    (handleStreamEvent e rounds).map AgentRound.round =
      rounds.map AgentRound.round ++ (roundStartIdx e).toList := by
  obtain ⟨t, d⟩ := e
  cases t
  case round_start => simp [handleStreamEvent, roundStartIdx]
  case llm_start =>
      have hfun : ∀ r : AgentRound,
          ((if r.round = d.round then { r with status := RoundStatus.llm_running }
            else r) : AgentRound).round = r.round := fun r => by split <;> rfl
      simp [handleStreamEvent, roundStartIdx, List.map_map, Function.comp, hfun]
  case llm_chunk =>
      have hfun : ∀ r : AgentRound,
          ((if r.round = d.round then
            { r with
              llm_chunks := some ((r.llm_chunks.getD []) ++ [d.chunk]),
              generated_text := d.accumulated }
            else r) : AgentRound).round = r.round := fun r => by split <;> rfl
      simp [handleStreamEvent, roundStartIdx, List.map_map, Function.comp, hfun]
  case llm_complete =>
      have hfun : ∀ r : AgentRound,
          ((if r.round = d.round then
            { r with generated_text := d.text, status := RoundStatus.sam3_running }
            else r) : AgentRound).round = r.round := fun r => by split <;> rfl
      simp [handleStreamEvent, roundStartIdx, List.map_map, Function.comp, hfun]
  case sam3_start =>
      have hfun : ∀ r : AgentRound,
          ((if r.status = RoundStatus.sam3_running then
            { r with
              sam3_calls := some ((r.sam3_calls.getD []) ++
                [{ text_prompt := d.text_prompt, num_masks := 0,
                   status := CallStatus.running }]) }
            else r) : AgentRound).round = r.round := fun r => by split <;> rfl
      simp [handleStreamEvent, roundStartIdx, List.map_map, Function.comp, hfun]
  case sam3_complete =>
      have hfun : ∀ r : AgentRound,
          ((if r.status = RoundStatus.sam3_running then
            let calls := r.sam3_calls.getD []
            match calls.getLast? with
            | none => { r with sam3_calls := some calls,
                               status := RoundStatus.complete }
            | some lastCall =>
                { r with
                  sam3_calls := some (calls.dropLast ++
                    [{ lastCall with
                       num_masks := d.num_masks,
                       json_path := some d.json_path,
                       image_path := some d.image_path,
                       status := CallStatus.complete }]),
                  status := RoundStatus.complete }
            else r) : AgentRound).round = r.round := fun r => by
        split
        · cases hl : (r.sam3_calls.getD []).getLast? <;> simp [hl]
        · rfl
      simp [handleStreamEvent, roundStartIdx, List.map_map, Function.comp, hfun]
  case agent_start => simp [handleStreamEvent, roundStartIdx]
  case agent_complete => simp [handleStreamEvent, roundStartIdx]
  case error => simp [handleStreamEvent, roundStartIdx]

/-- Folding any event sequence appends to the rounds list exactly the round
indices of its `round_start` events, in order. -/
theorem map_round_foldHandle (es : List StreamEvent) :
    ∀ rounds : List AgentRound,
      (foldHandle es rounds).map AgentRound.round =
        rounds.map AgentRound.round ++ es.filterMap roundStartIdx := by
  induction es with
  | nil => intro rounds; simp [foldHandle]
  | cons e es ih =>
      intro rounds
      have hstep : foldHandle (e :: es) rounds =
          foldHandle es (handleStreamEvent e rounds) := rfl
      rw [hstep, ih, map_round_handleStreamEvent, List.filterMap_cons]
      cases hr : roundStartIdx e <;> simp [hr]

/-- Invariant of the modelled agent loop: starting from round count `count`,
the run appends to the history a contiguous block of indices starting at
`count + 1`, and its `round_start` events carry exactly that block. -/
theorem agentLoopModel_history (reason : Nat → ToolCall) :
    ∀ (rem count : Nat) (hist : List Nat) (evs : List StreamEvent),
      ∃ n, (agentLoopModel reason rem count hist evs).history =
             hist ++ List.range' (count + 1) n ∧
           (agentLoopModel reason rem count hist evs).events.filterMap
               roundStartIdx =
             evs.filterMap roundStartIdx ++ List.range' (count + 1) n := by
  intro rem
  induction rem with
  | zero =>
      intro count hist evs
      exact ⟨0, by simp [agentLoopModel], by simp [agentLoopModel]⟩
  | succ rem ih =>
      intro count hist evs
      by_cases hterm : (reason count).isTerminal
      · refine ⟨1, ?_, ?_⟩
        · simp [agentLoopModel, hterm, List.range']
        · simp [agentLoopModel, hterm, List.range', roundStartIdx, roundEvent]
      · obtain ⟨n, hh, he⟩ := ih (count + 1)
          (hist ++ [count + 1])
          (evs ++ [roundEvent .round_start (count + 1),
                   roundEvent .llm_start (count + 1),
                   roundEvent .llm_complete (count + 1)])
        refine ⟨n + 1, ?_, ?_⟩
        · rw [show agentLoopModel reason (rem + 1) count hist evs =
            agentLoopModel reason rem (count + 1) (hist ++ [count + 1])
              (evs ++ [roundEvent .round_start (count + 1),
                       roundEvent .llm_start (count + 1),
                       roundEvent .llm_complete (count + 1)]) from by
            simp [agentLoopModel, hterm]]
          rw [hh, List.range'_succ, List.append_assoc]
          rfl
        · rw [show agentLoopModel reason (rem + 1) count hist evs =
            agentLoopModel reason rem (count + 1) (hist ++ [count + 1])
              (evs ++ [roundEvent .round_start (count + 1),
                       roundEvent .llm_start (count + 1),
                       roundEvent .llm_complete (count + 1)]) from by
            simp [agentLoopModel, hterm]]
          rw [he, List.range'_succ, List.filterMap_append]
          simp [roundStartIdx, roundEvent]

/-- C6: for the modelled agent run — any Reasoning Service behaviour, any
round budget — the round indices of the finished run's history are exactly
1..N in order (strictly increasing, contiguous, starting at 1, no gaps or
repeats), and the rounds list the stream consumer builds by folding the
emitted events through `handleStreamEvent` — one entry appended per
`round_start` event — carries exactly those indices in the same order. -/
theorem round_indices_contiguous (reason : Nat → ToolCall) (maxGen : Nat) :
    (runAgentModel reason maxGen).history =
        List.range' 1 (runAgentModel reason maxGen).history.length ∧
      (foldHandle (runAgentModel reason maxGen).events []).map
          AgentRound.round =
        (runAgentModel reason maxGen).history := by
  obtain ⟨n, hh, he⟩ := agentLoopModel_history reason maxGen 0 []
    [roundEvent .agent_start 0]
  have hh' : (runAgentModel reason maxGen).history = List.range' 1 n := by
    simpa [runAgentModel] using hh
  have he' : (runAgentModel reason maxGen).events.filterMap roundStartIdx =
      List.range' 1 n := by
    simpa [runAgentModel, roundStartIdx, roundEvent] using he
  constructor
  · rw [hh', List.length_range']
  · rw [map_round_foldHandle, he', hh']
    rfl

/-- If the Reasoning Service never emits a terminal tool, the modelled loop
always runs out its remaining budget, ending `incomplete` with one history
entry per remaining round. -/
theorem agentLoopModel_nonterminal (reason : Nat → ToolCall)
    (h : ∀ k, (reason k).isTerminal = false) :
    ∀ (rem count : Nat) (hist : List Nat) (evs : List StreamEvent),
      (agentLoopModel reason rem count hist evs).status = .incomplete ∧
        (agentLoopModel reason rem count hist evs).history.length =
          hist.length + rem := by
  intro rem
  induction rem with
  | zero => intro count hist evs; exact ⟨rfl, rfl⟩
  | succ rem ih =>
      intro count hist evs
      have hstep : agentLoopModel reason (rem + 1) count hist evs =
          agentLoopModel reason rem (count + 1) (hist ++ [count + 1])
            (evs ++ [roundEvent .round_start (count + 1),
                     roundEvent .llm_start (count + 1),
                     roundEvent .llm_complete (count + 1)]) := by
        simp [agentLoopModel, h count]
      obtain ⟨hs, hl⟩ := ih (count + 1) (hist ++ [count + 1])
        (evs ++ [roundEvent .round_start (count + 1),
                 roundEvent .llm_start (count + 1),
                 roundEvent .llm_complete (count + 1)])
      rw [hstep]
      refine ⟨hs, ?_⟩
      rw [hl]
      simp
      omega

/-- C8: every modelled agent run halts by construction (the loop recurses on
the strictly decreasing remaining budget), and when the Reasoning Service
never emits a terminal tool the run terminates in state `incomplete` after
exactly the configured maximum round count — the round budget is
mandatory. -/
theorem budget_exhaustion_incomplete (reason : Nat → ToolCall)
    (maxGen : Nat) (h : ∀ k, (reason k).isTerminal = false) :
    (runAgentModel reason maxGen).status = .incomplete ∧
      (runAgentModel reason maxGen).history.length = maxGen := by
  obtain ⟨hs, hl⟩ := agentLoopModel_nonterminal reason h maxGen 0 []
    [roundEvent .agent_start 0]
  exact ⟨hs, by simpa using hl⟩

/-- C8 witness: a Reasoning Service that always asks for another
segmentation exhausts a budget of 3 rounds and ends `incomplete` with
exactly 3 rounds of history. -/
theorem budget_exhaustion_incomplete_witness :
    (runAgentModel (fun _ => ToolCall.segment_phrase "cat") 3).status =
        RunStatus.incomplete ∧
      (runAgentModel (fun _ => ToolCall.segment_phrase "cat") 3).history.length
        = 3 :=
  budget_exhaustion_incomplete (fun _ => ToolCall.segment_phrase "cat") 3
    (fun _ => rfl)

/-- The run lengths produced by the encoder sum to the pending count plus the
remaining grid length. -/
theorem RLE.encAux_sum (m : List Bool) :
    ∀ (cur : Bool) (count : Nat), (RLE.encAux cur count m).sum = count + m.length := by
  induction m with
  | nil => intro cur count; simp [RLE.encAux]
  | cons x xs ih =>
      intro cur count
      by_cases hx : x = cur
      · rw [show RLE.encAux cur count (x :: xs) = RLE.encAux cur (count + 1) xs
          from by simp [RLE.encAux, hx]]
        rw [ih]
        simp
        omega
      · rw [show RLE.encAux cur count (x :: xs) =
          count :: RLE.encAux x 1 xs from by simp [RLE.encAux, hx]]
        rw [List.sum_cons, ih]
        simp
        omega

/-- Decoding the runs the encoder produced from value `cur` and pending count
`count` restores the pending replicated block followed by the grid. -/
theorem RLE.decAux_encAux (m : List Bool) :
    ∀ (cur : Bool) (count : Nat),
      RLE.decAux cur (RLE.encAux cur count m) =
        List.replicate count cur ++ m := by
  induction m with
  | nil =>
      intro cur count
      simp [RLE.encAux, RLE.decAux]
  | cons x xs ih =>
      intro cur count
      by_cases hx : x = cur
      · rw [show RLE.encAux cur count (x :: xs) = RLE.encAux cur (count + 1) xs
          from by simp [RLE.encAux, hx]]
        rw [ih, List.replicate_succ', List.append_assoc, hx]
        rfl
      · have hx' : x = !cur := by
          cases x <;> cases cur <;> simp_all
        rw [show RLE.encAux cur count (x :: xs) =
          count :: RLE.encAux x 1 xs from by simp [RLE.encAux, hx]]
        rw [show RLE.decAux cur (count :: RLE.encAux x 1 xs) =
          List.replicate count cur ++ RLE.decAux (!cur) (RLE.encAux x 1 xs)
          from rfl]
        rw [← hx', ih]
        rfl

/-- C7: the RLE codec round-trips exactly — for every dense boolean grid of
positive shape `height × width`, decoding the encoding at that shape returns
the grid unchanged. -/
theorem rle_roundtrip (height width : Nat) (m : List Bool)
    (hh : 0 < height) (hw : 0 < width) (hm : m.length = height * width) :
    RLE.decode (RLE.encode m) height width = Except.ok m := by
  unfold RLE.decode RLE.encode
  rw [if_neg (by omega), if_neg (by rw [RLE.encAux_sum]; omega)]
  rw [RLE.decAux_encAux]
  rfl

/-- C7 witness: the round-trip theorem applied to a concrete 2×2 grid. -/
theorem rle_roundtrip_witness :
    RLE.decode (RLE.encode [true, false, false, true]) 2 2 =
      Except.ok [true, false, false, true] :=
  rle_roundtrip 2 2 [true, false, false, true] (by decide) (by decide)
    (by decide)

/-- The split of a character list is never empty. -/
theorem splitNl_ne_nil (l : List Char) : splitNl l ≠ [] := by
  cases l with
  | nil => simp [splitNl]
  | cons c cs =>
      simp only [splitNl]
      split
      · simp
      · split <;> simp

/-- A newline-free character list splits into the single segment itself. -/
theorem splitNl_no_newline {l : List Char} (h : '\n' ∉ l) :
    splitNl l = [l] := by
  induction l with
  | nil => rfl
  | cons c cs ih =>
      have hc : ¬ c = '\n' := fun hc => h (by simp [hc])
      have hcs : '\n' ∉ cs := fun hm => h (List.mem_cons_of_mem _ hm)
      simp only [splitNl]
      rw [if_neg hc, ih hcs]

/-- The trailing segment of a split never contains a newline. -/
theorem no_newline_lastSeg (l : List Char) :
    '\n' ∉ lastSeg (splitNl l) := by
  induction l with
  | nil => simp [splitNl, lastSeg]
  | cons c cs ih =>
      by_cases hc : c = '\n'
      · simp only [splitNl, if_pos hc]
        cases hsp : splitNl cs with
        | nil => exact absurd hsp (splitNl_ne_nil cs)
        | cons s rest =>
            rw [hsp] at ih
            rw [show lastSeg ([] :: s :: rest) = lastSeg (s :: rest) from by
              simp [lastSeg, List.getLast?_cons_cons]]
            exact ih
      · simp only [splitNl]
        rw [if_neg hc]
        cases hsp : splitNl cs with
        | nil => exact absurd hsp (splitNl_ne_nil cs)
        | cons s rest =>
            rw [hsp] at ih
            cases rest with
            | nil =>
                simp only [lastSeg] at ih ⊢
                simp at ih ⊢
                exact ⟨fun h => hc h.symm, ih⟩
            | cons u us =>
                rw [show lastSeg ((c :: s) :: u :: us) = lastSeg (u :: us)
                  from by simp [lastSeg, List.getLast?_cons_cons]]
                rw [show lastSeg (s :: u :: us) = lastSeg (u :: us) from by
                  simp [lastSeg, List.getLast?_cons_cons]] at ih
                exact ih

/-- `consApp` never produces the empty list. -/
theorem consApp_ne_nil (x : List Char) (ls : List (List Char)) :
    consApp x ls ≠ [] := by
  cases ls <;> simp [consApp]

/-- Splitting a concatenation: the segments of `a ++ b` are the complete
segments of `a`, then `b`'s segments with `a`'s trailing segment glued onto
the first of them. -/
theorem splitNl_append (a b : List Char) :
    splitNl (a ++ b) =
      (splitNl a).dropLast ++ consApp (lastSeg (splitNl a)) (splitNl b) := by
  induction a with
  | nil =>
      cases hb : splitNl b with
      | nil => exact absurd hb (splitNl_ne_nil b)
      | cons y ys => simp [splitNl, lastSeg, consApp, hb]
  | cons c cs ih =>
      by_cases hc : c = '\n'
      · subst hc
        have e1 : splitNl ('\n' :: (cs ++ b)) = [] :: splitNl (cs ++ b) := by
          simp [splitNl]
        have e2 : splitNl ('\n' :: cs) = [] :: splitNl cs := by
          simp [splitNl]
        rw [List.cons_append, e1, e2, ih]
        cases hsp : splitNl cs with
        | nil => exact absurd hsp (splitNl_ne_nil cs)
        | cons s rest =>
            simp [lastSeg, List.getLast?_cons_cons, List.dropLast]
      · have e1 : splitNl (c :: (cs ++ b)) =
            (match splitNl (cs ++ b) with
             | [] => [[c]]
             | seg :: rest => (c :: seg) :: rest) := by
          simp only [splitNl]
          rw [if_neg hc]
        have e2 : splitNl (c :: cs) =
            (match splitNl cs with
             | [] => [[c]]
             | seg :: rest => (c :: seg) :: rest) := by
          simp only [splitNl]
          rw [if_neg hc]
        rw [List.cons_append, e1, e2, ih]
        cases hsp : splitNl cs with
        | nil => exact absurd hsp (splitNl_ne_nil cs)
        | cons s rest =>
            cases hb : splitNl b with
            | nil => exact absurd hb (splitNl_ne_nil b)
            | cons y ys =>
                cases rest with
                | nil => simp [lastSeg, consApp, List.dropLast]
                | cons u us =>
                    simp [lastSeg, consApp, List.getLast?_cons_cons,
                      List.dropLast]

/-- The read loop, started on a newline-free carried buffer, delivers exactly
the callbacks of the complete lines of the concatenated stream (the trailing
segment after the last newline is never processed). -/
theorem readLoop_eq (parse : List Char → Option StreamEvent) :
    ∀ (chunks : List (List Char)) (buf : List Char), '\n' ∉ buf →
      readLoop parse buf chunks =
        lineSeq parse (splitNl (buf ++ chunks.flatten)).dropLast := by
  intro chunks
  induction chunks with
  | nil =>
      intro buf hbuf
      rw [show readLoop parse buf [] = [] from rfl]
      rw [List.flatten_nil, List.append_nil, splitNl_no_newline hbuf]
      rfl
  | cons c cs ih =>
      intro buf hbuf
      rw [show readLoop parse buf (c :: cs) =
        lineSeq parse (splitNl (buf ++ c)).dropLast ++
          readLoop parse (lastSeg (splitNl (buf ++ c))) cs from rfl]
      rw [ih _ (no_newline_lastSeg (buf ++ c))]
      have hflat : buf ++ (c :: cs).flatten = (buf ++ c) ++ cs.flatten := by
        rw [List.flatten_cons, List.append_assoc]
      rw [hflat, splitNl_append (buf ++ c) cs.flatten,
        List.dropLast_append_of_ne_nil _ (consApp_ne_nil _ _)]
      rw [show lineSeq parse ((splitNl (buf ++ c)).dropLast ++
          (consApp (lastSeg (splitNl (buf ++ c)))
            (splitNl cs.flatten)).dropLast) =
        lineSeq parse (splitNl (buf ++ c)).dropLast ++
          lineSeq parse (consApp (lastSeg (splitNl (buf ++ c)))
            (splitNl cs.flatten)).dropLast from List.flatMap_append ..]
      congr 1
      rw [splitNl_append (lastSeg (splitNl (buf ++ c))) cs.flatten,
        splitNl_no_newline (no_newline_lastSeg (buf ++ c))]
      rfl

/-- C9: the SSE client's line-buffered parsing is chunking-invariant — for
any two ways of splitting the same decoded character stream into read
chunks, `runAgentStream` delivers the same ordered callback sequence,
because an incomplete trailing line is carried in the buffer until its
remainder arrives; the result depends only on the concatenated stream. -/
theorem chunking_invariant (parse : List Char → Option StreamEvent)
    (chunks1 chunks2 : List (List Char))
    (h : chunks1.flatten = chunks2.flatten) :
    runStream parse chunks1 = runStream parse chunks2 := by
  unfold runStream
  rw [readLoop_eq parse chunks1 [] (by simp),
    readLoop_eq parse chunks2 [] (by simp), h]

/-- C9 witness: splitting the stream `"data: x\ny"` as `"da" + "ta: x\ny"`
or as `"data: x\n" + "y"` yields identical callbacks under a concrete parse
function. -/
theorem chunking_invariant_witness :
    runStream (fun l => if l = ['x'] then
        some { type := .agent_complete, data := {} } else none)
      [['d', 'a'], ['t', 'a', ':', ' ', 'x', '\n', 'y']] =
      runStream (fun l => if l = ['x'] then
          some { type := .agent_complete, data := {} } else none)
        [['d', 'a', 't', 'a', ':', ' ', 'x', '\n'], ['y']] :=
  chunking_invariant _ _ _ (by decide)
